import Mathlib

/-!
Verification of the UTXO-DUMP block-file decoder (`utxo/blockdb.py`).

The decoder works against a forward-only cursor over an in-memory byte
buffer.  We model a cursor as the list of bytes still unread (each byte a
`Nat`, in range `< 256` for real inputs); every decoding function takes the
remaining bytes and returns either an error or the decoded value paired with
the bytes left after it.

Python stream semantics modelled here:
* `stream.read(n)` on a `BytesIO` returns *up to* `n` bytes — a short read at
  end of stream is silent, not an error (`sread`).
* `struct.unpack` of a fixed-width little-endian integer raises when handed
  a short byte string — this is the decoder's end-of-stream error
  (`unpackLE`).
* a failed `assert` (canonical-form and ceiling checks in
  `read_compact_size`, magic comparison in `read_blockfile`) is the
  decoder's malformed-input error.
-/

deriving instance DecidableEq for Except

set_option maxRecDepth 100000

namespace UtxoDump

/-- Error kinds of the decoder: `eof` for a short fixed-width read inside
`unpack` (end-of-stream) and `malformed` for a failed `assert`
(non-canonical compact size, ceiling violation, magic mismatch). -/
inductive Err where
  | eof
  | malformed
deriving DecidableEq, Repr

/-- Little-endian interpretation of a byte list: `leNat [b0, b1, ...] =
b0 + 256*b1 + ...`. -/
def leNat (bs : List Nat) : Nat :=
  bs.foldr (fun b acc => b + 256 * acc) 0

/-- `stream.read n`: take up to `n` bytes from the cursor, silently short at
end of stream, returning the bytes read and the advanced cursor. -/
def sread (n : Nat) (s : List Nat) : List Nat × List Nat :=
  (s.take n, s.drop n)

/-- `unpack` of a `w`-byte little-endian unsigned integer from
`stream.read w`: fails with `eof` when fewer than `w` bytes remain. -/
def unpackLE (w : Nat) (s : List Nat) : Except Err (Nat × List Nat) :=
  if (s.take w).length = w then .ok (leNat (s.take w), s.drop w)
  else .error .eof

/-- `read_compact_size`: one tag byte `n`; `n < 253` is the value itself,
`253`/`254`/`255` announce a 2/4/8-byte little-endian payload whose value
must be `≥ 253` / `≥ 0x10000` / `≥ 0x100000000` (canonical form), and every
decoded value must be `≤ 0x02000000`. -/
def read_compact_size (s : List Nat) : Except Err (Nat × List Nat) :=
  match unpackLE 1 s with
  | .error e => .error e
  | .ok (n, s) =>
    let step : Except Err (Nat × List Nat) :=
      if n < 253 then .ok (n, s)
      else if n = 253 then
        match unpackLE 2 s with
        | .error e => .error e
        | .ok (r, s) => if 253 ≤ r then .ok (r, s) else .error .malformed
      else if n = 254 then
        match unpackLE 4 s with
        | .error e => .error e
        | .ok (r, s) => if 0x10000 ≤ r then .ok (r, s) else .error .malformed
      else
        match unpackLE 8 s with
        | .error e => .error e
        | .ok (r, s) => if 0x100000000 ≤ r then .ok (r, s) else .error .malformed
    match step with
    | .error e => .error e
    | .ok (ret, s) => if ret ≤ 0x02000000 then .ok (ret, s) else .error .malformed

/-- `read_bytes`: a compact-size length `n` followed by `stream.read n` —
the payload read is the lax `sread`, so a short payload is returned as-is. -/
def read_bytes (s : List Nat) : Except Err (List Nat × List Nat) :=
  match read_compact_size s with
  | .error e => .error e
  | .ok (n, s) => .ok (sread n s)

/-- The element-repetition loop of `read_vector`: run the element decoder
`n` times in order, accumulating results. -/
def read_n {α : Type} (f : List Nat → Except Err (α × List Nat)) :
    Nat → List Nat → Except Err (List α × List Nat)
  | 0, s => .ok ([], s)
  | Nat.succ k, s =>
    match f s with
    | .error e => .error e
    | .ok (x, s) =>
      match read_n f k s with
      | .error e => .error e
      | .ok (xs, s) => .ok (x :: xs, s)

/-- `read_vector`: a compact-size element count followed by that many
element decodes from the shared cursor. -/
def read_vector {α : Type} (f : List Nat → Except Err (α × List Nat))
    (s : List Nat) : Except Err (List α × List Nat) :=
  match read_compact_size s with
  | .error e => .error e
  | .ok (n, s) => read_n f n s

/-- A reference to a prior transaction's output: 32-byte `hash` kept in
wire order and a 4-byte little-endian index `n`. -/
structure OutPoint where
  hash : List Nat
  n : Nat
deriving DecidableEq, Repr

/-- `OutPoint.from_bytes`: `stream.read 32` for `hash`, then an
`unpack`-checked 4-byte little-endian `n`. -/
def OutPoint.from_bytes (s : List Nat) : Except Err (OutPoint × List Nat) :=
  let (hash, s) := sread 32 s
  match unpackLE 4 s with
  | .error e => .error e
  | .ok (n, s) => .ok (⟨hash, n⟩, s)

/-- A transaction input: the spent `prevout`, the unlocking `script_sig`,
and a 4-byte `sequence`. -/
structure TxIn where
  prevout : OutPoint
  script_sig : List Nat
  sequence : Nat
deriving DecidableEq, Repr

/-- `TxIn.from_bytes`: an `OutPoint`, a length-prefixed `ScriptSig` blob,
then a 4-byte little-endian `sequence`. -/
def TxIn.from_bytes (s : List Nat) : Except Err (TxIn × List Nat) :=
  match OutPoint.from_bytes s with
  | .error e => .error e
  | .ok (prevout, s) =>
    match read_bytes s with
    | .error e => .error e
    | .ok (sig, s) =>
      match unpackLE 4 s with
      | .error e => .error e
      | .ok (sn, s) => .ok (⟨prevout, sig, sn⟩, s)

/-- A transaction output: an 8-byte `value` and a length-prefixed locking
script `pubkey`. -/
structure TxOut where
  value : Nat
  pubkey : List Nat
deriving DecidableEq, Repr

/-- `TxOut.from_bytes`: 8-byte little-endian `value`, then a
length-prefixed `pubkey` blob. -/
def TxOut.from_bytes (s : List Nat) : Except Err (TxOut × List Nat) :=
  match unpackLE 8 s with
  | .error e => .error e
  | .ok (value, s) =>
    match read_bytes s with
    | .error e => .error e
    | .ok (pubkey, s) => .ok (⟨value, pubkey⟩, s)

/-- A Sprout join-split bundle.  The `proof` is the fixed 8-element list of
[1-byte flag, payload] pairs; `ciphertexts` the two 601-byte notes. -/
structure JoinSplit where
  vpub_old : Nat
  vpub_new : Nat
  anchor : List Nat
  nullifiers : List (List Nat)
  commitments : List (List Nat)
  ephemeral_key : List Nat
  random_seed : List Nat
  macs : List (List Nat)
  proof : List (List Nat × List Nat)
  ciphertexts : List (List Nat)
deriving DecidableEq, Repr

/-- `JoinSplit.from_bytes`: two `unpack`-checked 8-byte integers, then raw
`stream.read` fields with all counts (2, 2, 2, 8 pairs of lengths
32,32,64,32,32,32,32,32, and 2 × (585+16)) as constants. -/
def JoinSplit.from_bytes (s : List Nat) : Except Err (JoinSplit × List Nat) :=
  match unpackLE 8 s with
  | .error e => .error e
  | .ok (vpub_old, s) =>
    match unpackLE 8 s with
    | .error e => .error e
    | .ok (vpub_new, s) =>
      let (anchor, s) := sread 32 s
      let (nf0, s) := sread 32 s
      let (nf1, s) := sread 32 s
      let (cm0, s) := sread 32 s
      let (cm1, s) := sread 32 s
      let (ephemeral_key, s) := sread 32 s
      let (random_seed, s) := sread 32 s
      let (mac0, s) := sread 32 s
      let (mac1, s) := sread 32 s
      let (pf0a, s) := sread 1 s
      let (pf0b, s) := sread 32 s
      let (pf1a, s) := sread 1 s
      let (pf1b, s) := sread 32 s
      let (pf2a, s) := sread 1 s
      let (pf2b, s) := sread 64 s
      let (pf3a, s) := sread 1 s
      let (pf3b, s) := sread 32 s
      let (pf4a, s) := sread 1 s
      let (pf4b, s) := sread 32 s
      let (pf5a, s) := sread 1 s
      let (pf5b, s) := sread 32 s
      let (pf6a, s) := sread 1 s
      let (pf6b, s) := sread 32 s
      let (pf7a, s) := sread 1 s
      let (pf7b, s) := sread 32 s
      let (ct0, s) := sread (585 + 16) s
      let (ct1, s) := sread (585 + 16) s
      .ok (⟨vpub_old, vpub_new, anchor, [nf0, nf1], [cm0, cm1],
            ephemeral_key, random_seed, [mac0, mac1],
            [(pf0a, pf0b), (pf1a, pf1b), (pf2a, pf2b), (pf3a, pf3b),
             (pf4a, pf4b), (pf5a, pf5b), (pf6a, pf6b), (pf7a, pf7b)],
            [ct0, ct1]⟩, s)

/-- A transaction; `vjoinsplit` is empty unless `version ≥ 2`, and the
trailing `joinsplit_pubkey`/`joinsplit_sig` are read only when
`vjoinsplit` is non-empty. -/
structure Transaction where
  version : Nat
  vin : List TxIn
  vout : List TxOut
  lock_time : Nat
  vjoinsplit : List JoinSplit
  joinsplit_pubkey : List Nat
  joinsplit_sig : List Nat
deriving DecidableEq, Repr

/-- `Transaction.from_bytes`: version, `vin`, `vout`, `lock_time`; a
`JoinSplit` vector only when `version ≥ 2`; pubkey and signature reads only
when that vector is non-empty. -/
def Transaction.from_bytes (s : List Nat) : Except Err (Transaction × List Nat) :=
  match unpackLE 4 s with
  | .error e => .error e
  | .ok (version, s) =>
    match read_vector TxIn.from_bytes s with
    | .error e => .error e
    | .ok (vin, s) =>
      match read_vector TxOut.from_bytes s with
      | .error e => .error e
      | .ok (vout, s) =>
        match unpackLE 4 s with
        | .error e => .error e
        | .ok (locktime, s) =>
          match (if 2 ≤ version then read_vector JoinSplit.from_bytes s
                 else .ok ([], s)) with
          | .error e => .error e
          | .ok (joinsplits, s) =>
            if 0 < joinsplits.length then
              let (jpk, s) := sread 32 s
              let (jsig, s) := sread 64 s
              .ok (⟨version, vin, vout, locktime, joinsplits, jpk, jsig⟩, s)
            else
              .ok (⟨version, vin, vout, locktime, joinsplits, [], []⟩, s)

/-- A block header; all fixed fields kept as raw bytes, plus the
length-prefixed Equihash `solution`. -/
structure BlockHeader where
  version : List Nat
  hash_prev : List Nat
  hash_root : List Nat
  hash_extra : List Nat
  time : List Nat
  bits : List Nat
  nonce : List Nat
  solution : List Nat
deriving DecidableEq, Repr

/-- `BlockHeader.from_bytes`: raw reads of 4, 32, 32, 32, 4, 4, 32 bytes,
then the length-prefixed `solution` blob. -/
def BlockHeader.from_bytes (s : List Nat) : Except Err (BlockHeader × List Nat) :=
  let (version, s) := sread 4 s
  let (hash_prev, s) := sread 32 s
  let (hash_root, s) := sread 32 s
  let (hash_extra, s) := sread 32 s
  let (time, s) := sread 4 s
  let (bits, s) := sread 4 s
  let (nonce, s) := sread 32 s
  match read_bytes s with
  | .error e => .error e
  | .ok (solution, s) =>
    .ok (⟨version, hash_prev, hash_root, hash_extra, time, bits, nonce,
          solution⟩, s)

/-- A block: its header and the ordered transaction list. -/
structure Block where
  header : BlockHeader
  transactions : List Transaction
deriving DecidableEq, Repr

/-- `Block.from_bytes`: the header followed by a `Transaction` vector. -/
def Block.from_bytes (s : List Nat) : Except Err (Block × List Nat) :=
  match BlockHeader.from_bytes s with
  | .error e => .error e
  | .ok (header, s) =>
    match read_vector Transaction.from_bytes s with
    | .error e => .error e
    | .ok (transactions, s) => .ok (⟨header, transactions⟩, s)

/-- An `ok` result of `unpackLE` pins the advanced cursor and requires `w`
bytes to have been present. -/
theorem unpackLE_ok_drop {w : Nat} {s s' : List Nat} {v : Nat}
    (h : unpackLE w s = .ok (v, s')) : s' = s.drop w ∧ w ≤ s.length := by
  unfold unpackLE at h
  split at h
  · rename_i hl
    simp only [Except.ok.injEq, Prod.mk.injEq] at h
    refine ⟨h.2.symm, ?_⟩
    simpa [List.length_take] using hl.symm.le
  · cases h

/-- The record loop of `read_blockfile`: read `magic.length` bytes; a
zero-length read stops cleanly, a mismatch is malformed; otherwise read a
4-byte little-endian `size`, slice `size` payload bytes, decode one `Block`
from the slice, and continue after the slice regardless of how much of it
the block decoder consumed. -/
def read_blockfile_go (magic : List Nat) (file : List Nat) :
    Except Err (List Block) :=
  if h0 : (file.take magic.length).length = 0 then .ok []
  else if file.take magic.length ≠ magic then .error .malformed
  else
    match h4 : unpackLE 4 (file.drop magic.length) with
    | .error e => .error e
    | .ok (size, rest) =>
      match Block.from_bytes (rest.take size) with
      | .error e => .error e
      | .ok (b, _) =>
        match read_blockfile_go magic (rest.drop size) with
        | .error e => .error e
        | .ok bs => .ok (b :: bs)
termination_by file.length
decreasing_by
  have hw := unpackLE_ok_drop h4
  simp only [List.length_take] at h0
  simp only [hw.1, List.length_drop]
  omega

/-- `read_blockfile`: the entry point, with the opened file's contents in
place of its path.  Walks the `[magic][size][payload]` records and returns
the blocks in file order. -/
def read_blockfile (file : List Nat) (magic : List Nat) :
    Except Err (List Block) :=
  read_blockfile_go magic file

theorem leNat_nil : leNat [] = 0 := rfl

theorem leNat_cons (b : Nat) (l : List Nat) :
    leNat (b :: l) = b + 256 * leNat l := rfl

theorem unpackLE_ok_of_le {w : Nat} {s : List Nat} (h : w ≤ s.length) :
    unpackLE w s = .ok (leNat (s.take w), s.drop w) := by
  simp [unpackLE, List.length_take, Nat.min_eq_left h]

theorem unpackLE_eof {w : Nat} {s : List Nat} (h : s.length < w) :
    unpackLE w s = .error .eof := by
  simp only [unpackLE, List.length_take]
  rw [if_neg (by omega)]

theorem unpackLE_append {w : Nat} {pre rest : List Nat} (h : pre.length = w) :
    unpackLE w (pre ++ rest) = .ok (leNat pre, rest) := by
  subst h
  rw [unpackLE_ok_of_le (by simp), List.take_left, List.drop_left]

theorem unpackLE_one (b : Nat) (rest : List Nat) :
    unpackLE 1 (b :: rest) = .ok (b, rest) := by
  have h := @unpackLE_append 1 [b] rest rfl
  simpa [leNat_cons, leNat_nil] using h

/-- Little-endian byte expansion of `v` into exactly `w` bytes. -/
def leBytes : Nat → Nat → List Nat
  | 0, _ => []
  | Nat.succ k, v => v % 256 :: leBytes k (v / 256)

theorem leBytes_length (w v : Nat) : (leBytes w v).length = w := by
  induction w generalizing v with
  | zero => rfl
  | succ k ih => simp [leBytes, ih]

theorem leNat_leBytes {w v : Nat} (h : v < 256 ^ w) :
    leNat (leBytes w v) = v := by
  induction w generalizing v with
  | zero =>
    simp only [leBytes, leNat_nil]
    simp only [pow_zero] at h
    omega
  | succ k ih =>
    have hv : v / 256 < 256 ^ k := by
      rw [Nat.div_lt_iff_lt_mul (by norm_num)]
      calc v < 256 ^ (k + 1) := h
        _ = 256 ^ k * 256 := by ring
    simp only [leBytes, leNat_cons, ih hv]
    omega

/-- Modelled from the spec: the canonical compact-size *encoder* (the
repository only decodes; §6/§8 of the spec describe the encoding), used to
state round-trip claims against the source's `read_compact_size`. -/
def encodeCS (v : Nat) : List Nat :=
  if v < 253 then [v]
  else if v < 0x10000 then 253 :: leBytes 2 v
  else if v < 0x100000000 then 254 :: leBytes 4 v
  else 255 :: leBytes 8 v

/-- Decoding a canonical compact-size encoding recovers the value and
consumes exactly the encoding's bytes. -/
theorem read_compact_size_encode {v : Nat} (rest : List Nat)
    (hv : v ≤ 0x02000000) :
    read_compact_size (encodeCS v ++ rest) = .ok (v, rest) := by
  unfold encodeCS
  by_cases h1 : v < 253
  · simp only [if_pos h1, List.cons_append, List.nil_append]
    simp [read_compact_size, unpackLE_one, h1, hv]
  · by_cases h2 : v < 0x10000
    · simp only [if_neg h1, if_pos h2, List.cons_append]
      have h1' : 253 ≤ v := Nat.le_of_not_lt h1
      have hv2 : v < 256 ^ 2 := by norm_num; omega
      simp [read_compact_size, unpackLE_one,
        unpackLE_append (leBytes_length 2 v), leNat_leBytes hv2, h1', hv]
    · by_cases h3 : v < 0x100000000
      · simp only [if_neg h1, if_neg h2, if_pos h3, List.cons_append]
        have h2' : 0x10000 ≤ v := Nat.le_of_not_lt h2
        have hv4 : v < 256 ^ 4 := by norm_num; omega
        simp [read_compact_size, unpackLE_one,
          unpackLE_append (leBytes_length 4 v), leNat_leBytes hv4, h2', hv]
      · exfalso
        norm_num at h3 hv
        omega

/-- A zero-length magic read (end of file at a record boundary, or an empty
expected magic) stops the record loop cleanly. -/
theorem go_stop {magic file : List Nat} (h : file.take magic.length = []) :
    read_blockfile_go magic file = .ok [] := by
  rw [read_blockfile_go.eq_def]
  simp [h]

/-- A non-empty magic read that differs from the expected magic fails the
whole read as malformed. -/
theorem go_mismatch {magic file : List Nat}
    (h1 : file.take magic.length ≠ [])
    (h2 : file.take magic.length ≠ magic) :
    read_blockfile_go magic file = .error .malformed := by
  rw [read_blockfile_go.eq_def]
  rw [dif_neg (by simpa [List.length_eq_zero] using h1)]
  rw [if_pos h2]

/-- A file ending after a complete magic sequence with fewer than 4 bytes
left fails the `size` read with end-of-stream. -/
theorem go_truncated {magic short : List Nat} (hm : magic ≠ [])
    (hshort : short.length < 4) :
    read_blockfile_go magic (magic ++ short) = .error .eof := by
  rw [read_blockfile_go.eq_def]
  rw [List.take_left, List.drop_left]
  rw [dif_neg (by simpa [List.length_eq_zero] using hm)]
  rw [if_neg (by simp)]
  split
  · rename_i e h4
    rw [unpackLE_eof hshort] at h4
    cases h4
    rfl
  · rename_i size rest h4
    rw [unpackLE_eof hshort] at h4
    cases h4

/-- One successfully decoded record prepends its block and hands the loop
exactly the bytes after the declared `size`, regardless of the `leftover`
bytes the block decoder did not consume. -/
theorem go_record_ok {magic size4 payload rest : List Nat} {b : Block}
    {leftover : List Nat}
    (hm : magic ≠ []) (h4 : size4.length = 4)
    (hp : payload.length = leNat size4)
    (hb : Block.from_bytes payload = .ok (b, leftover)) :
    read_blockfile_go magic (magic ++ (size4 ++ (payload ++ rest))) =
      Except.map (fun bs => b :: bs) (read_blockfile_go magic rest) := by
  rw [read_blockfile_go.eq_def]
  rw [List.take_left, List.drop_left]
  rw [dif_neg (by simpa [List.length_eq_zero] using hm)]
  rw [if_neg (by simp)]
  split
  · rename_i e hu
    rw [unpackLE_append h4] at hu
    cases hu
  · rename_i size rest₂ hu
    rw [unpackLE_append h4] at hu
    simp only [Except.ok.injEq, Prod.mk.injEq] at hu
    obtain ⟨hsize, hrest⟩ := hu
    subst hsize
    subst hrest
    rw [List.take_left' hp, List.drop_left' hp, hb]
    cases hgo : read_blockfile_go magic rest <;> simp [hgo, Except.map]

/-- A record whose payload fails to decode fails the whole read with the
block decoder's error. -/
theorem go_record_err {magic size4 payload rest : List Nat} {e : Err}
    (hm : magic ≠ []) (h4 : size4.length = 4)
    (hp : payload.length = leNat size4)
    (hb : Block.from_bytes payload = .error e) :
    read_blockfile_go magic (magic ++ (size4 ++ (payload ++ rest))) =
      .error e := by
  rw [read_blockfile_go.eq_def]
  rw [List.take_left, List.drop_left]
  rw [dif_neg (by simpa [List.length_eq_zero] using hm)]
  rw [if_neg (by simp)]
  split
  · rename_i e' hu
    rw [unpackLE_append h4] at hu
    cases hu
  · rename_i size rest₂ hu
    rw [unpackLE_append h4] at hu
    simp only [Except.ok.injEq, Prod.mk.injEq] at hu
    obtain ⟨hsize, hrest⟩ := hu
    subst hsize
    subst hrest
    rw [List.take_left' hp, hb]

theorem unpackLE_cons2 (a b : Nat) (rest : List Nat) :
    unpackLE 2 (a :: b :: rest) = .ok (a + 256 * b, rest) := by
  have h := @unpackLE_append 2 [a, b] rest rfl
  simpa [leNat_cons, leNat_nil] using h

theorem unpackLE_cons4 (a b c d : Nat) (rest : List Nat) :
    unpackLE 4 (a :: b :: c :: d :: rest) =
      .ok (a + 256 * (b + 256 * (c + 256 * d)), rest) := by
  have h := @unpackLE_append 4 [a, b, c, d] rest rfl
  simpa [leNat_cons, leNat_nil] using h

theorem unpackLE_cons8 (b0 b1 b2 b3 b4 b5 b6 b7 : Nat) (rest : List Nat) :
    unpackLE 8 (b0 :: b1 :: b2 :: b3 :: b4 :: b5 :: b6 :: b7 :: rest) =
      .ok (leNat [b0, b1, b2, b3, b4, b5, b6, b7], rest) := by
  have h := @unpackLE_append 8 [b0, b1, b2, b3, b4, b5, b6, b7] rest rfl
  simpa only [List.cons_append, List.nil_append] using h

/-- A record whose declared `size` exceeds the bytes left in the file
slices out only the remaining bytes; the read then succeeds or fails with
whatever the block decoder does on that short slice. -/
theorem go_short_payload {magic size4 tail : List Nat}
    (hm : magic ≠ []) (h4 : size4.length = 4)
    (ht : tail.length < leNat size4) :
    read_blockfile_go magic (magic ++ (size4 ++ tail)) =
      match Block.from_bytes tail with
      | .error e => .error e
      | .ok (b, _) => .ok [b] := by
  rw [read_blockfile_go.eq_def]
  rw [List.take_left, List.drop_left]
  rw [dif_neg (by simpa [List.length_eq_zero] using hm)]
  rw [if_neg (by simp)]
  split
  · rename_i e hu
    rw [unpackLE_append h4] at hu
    cases hu
  · rename_i size rest₂ hu
    rw [unpackLE_append h4] at hu
    simp only [Except.ok.injEq, Prod.mk.injEq] at hu
    obtain ⟨hsize, hrest⟩ := hu
    subst hsize
    subst hrest
    rw [List.take_of_length_le ht.le, List.drop_eq_nil_of_le ht.le]
    rw [go_stop (by simp)]

/-- C9: decoding any buffer of at least 36 bytes with `OutPoint.from_bytes`
consumes exactly 36 bytes, takes `hash` verbatim from the first 32 bytes
(wire order, no reversal) and `n` as the little-endian 32-bit value of
bytes 32..35. -/
theorem c9_outpoint_exact (s : List Nat) (h : 36 ≤ s.length) :
    OutPoint.from_bytes s =
      .ok (⟨s.take 32, leNat ((s.drop 32).take 4)⟩, s.drop 36) := by
  have h4 : 4 ≤ (s.drop 32).length := by
    rw [List.length_drop]
    omega
  simp only [OutPoint.from_bytes, sread]
  rw [unpackLE_ok_of_le h4]
  norm_num [List.drop_drop]

theorem c9_witness :
    OutPoint.from_bytes (List.range 36) =
      .ok (⟨(List.range 36).take 32, leNat (((List.range 36).drop 32).take 4)⟩,
           (List.range 36).drop 36) :=
  c9_outpoint_exact (List.range 36) (by simp)

/-- C10: with an empty expected magic, `read_blockfile` returns the empty
block sequence on every file, without error: the zero-length magic read is
indistinguishable from the clean end-of-file stop. -/
theorem c10_empty_magic (file : List Nat) :
    read_blockfile file [] = .ok [] := by
  simp only [read_blockfile]
  exact go_stop (by simp)

/-- C5: decoding a canonical compact-size encoding of any `v ≤ 0x02000000`
returns exactly `v` and consumes exactly the encoding's bytes (1 for the
short form, 1+2 for the 253 form, 1+4 for the 254 form, 1+8 for the 255
form — the last unreachable below the ceiling). -/
theorem c5_compact_size_roundtrip (v : Nat) (rest : List Nat)
    (hv : v ≤ 0x02000000) :
    read_compact_size (encodeCS v ++ rest) = .ok (v, rest) ∧
    (encodeCS v).length =
      (if v < 253 then 1 else if v < 0x10000 then 3
       else if v < 0x100000000 then 5 else 9) := by
  refine ⟨read_compact_size_encode rest hv, ?_⟩
  unfold encodeCS
  split_ifs <;> simp [leBytes_length]

theorem c5_witness :
    read_compact_size (encodeCS 300 ++ [7]) = .ok (300, [7]) ∧
    (encodeCS 300).length =
      (if 300 < 253 then 1 else if 300 < 0x10000 then 3
       else if 300 < 0x100000000 then 5 else 9) :=
  c5_compact_size_roundtrip 300 [7] (by decide)

/-- C4: `read_compact_size` never returns a value above `0x02000000`, and
fails with malformed-input on every non-canonical encoding (253 form
decoding below 253, 254 form decoding below 0x10000, every complete 255
form — whose value is either below 0x100000000, hence non-canonical, or
above the ceiling) and on every 254-form value above the ceiling. -/
theorem c4_compact_size_validation :
    (∀ s s' : List Nat, ∀ v : Nat,
      read_compact_size s = .ok (v, s') → v ≤ 0x02000000) ∧
    (∀ a b : Nat, ∀ rest : List Nat, a + 256 * b < 253 →
      read_compact_size (253 :: a :: b :: rest) = .error .malformed) ∧
    (∀ a b c d : Nat, ∀ rest : List Nat,
      (a + 256 * (b + 256 * (c + 256 * d)) < 0x10000 ∨
        0x02000000 < a + 256 * (b + 256 * (c + 256 * d))) →
      read_compact_size (254 :: a :: b :: c :: d :: rest) =
        .error .malformed) ∧
    (∀ b0 b1 b2 b3 b4 b5 b6 b7 : Nat, ∀ rest : List Nat,
      read_compact_size
          (255 :: b0 :: b1 :: b2 :: b3 :: b4 :: b5 :: b6 :: b7 :: rest) =
        .error .malformed) := by
  refine ⟨?_, ?_, ?_, ?_⟩
  · intro s s' v h
    simp only [read_compact_size] at h
    split at h
    · simp at h
    · split at h
      · simp at h
      · split_ifs at h with hle
        · simp only [Except.ok.injEq, Prod.mk.injEq] at h
          obtain ⟨h1, h2⟩ := h
          omega
  · intro a b rest h
    have hne : ¬ 253 ≤ a + 256 * b := by omega
    simp [read_compact_size, unpackLE_one, unpackLE_cons2, hne]
  · intro a b c d rest h
    rcases h with h | h
    · have hne : ¬ 0x10000 ≤ a + 256 * (b + 256 * (c + 256 * d)) := by omega
      simp [read_compact_size, unpackLE_one, unpackLE_cons4, hne]
    · have hge : 0x10000 ≤ a + 256 * (b + 256 * (c + 256 * d)) := by omega
      have hne : ¬ a + 256 * (b + 256 * (c + 256 * d)) ≤ 0x02000000 := by
        omega
      simp [read_compact_size, unpackLE_one, unpackLE_cons4, hge, hne]
  · intro b0 b1 b2 b3 b4 b5 b6 b7 rest
    by_cases hv : 0x100000000 ≤ leNat [b0, b1, b2, b3, b4, b5, b6, b7]
    · have hne : ¬ leNat [b0, b1, b2, b3, b4, b5, b6, b7] ≤ 0x02000000 := by
        omega
      simp [read_compact_size, unpackLE_one, unpackLE_cons8, hv, hne]
    · simp [read_compact_size, unpackLE_one, unpackLE_cons8, hv]

theorem c4_witness :
    5 ≤ 0x02000000 ∧
    read_compact_size [253, 10, 0] = .error .malformed ∧
    read_compact_size [254, 0, 0, 0, 0] = .error .malformed ∧
    read_compact_size [255, 0, 0, 0, 0, 0, 0, 0, 0] = .error .malformed :=
  ⟨c4_compact_size_validation.1 [5] [] 5 (by decide),
   c4_compact_size_validation.2.1 10 0 [] (by decide),
   c4_compact_size_validation.2.2.1 0 0 0 0 [] (Or.inl (by decide)),
   c4_compact_size_validation.2.2.2 0 0 0 0 0 0 0 0 []⟩

/-- C7: after one record whose payload slice decodes to a block, the loop
continues exactly at magic-length + 4 + `size` bytes into the file — the
`leftover` bytes the block decoder did not consume are universally
quantified and ignored, never used to seek. -/
theorem c7_record_boundary (magic size4 payload rest : List Nat) (b : Block)
    (leftover : List Nat) (hm : magic ≠ []) (h4 : size4.length = 4)
    (hp : payload.length = leNat size4)
    (hb : Block.from_bytes payload = .ok (b, leftover)) :
    read_blockfile (magic ++ (size4 ++ (payload ++ rest))) magic =
      Except.map (fun bs => b :: bs) (read_blockfile rest magic) := by
  simp only [read_blockfile]
  exact go_record_ok hm h4 hp hb

theorem c7_witness :
    read_blockfile ([1] ++ ([146, 0, 0, 0] ++ (List.replicate 146 0 ++ [])))
        [1] =
      Except.map
        (fun bs =>
          (⟨⟨List.replicate 4 0, List.replicate 32 0, List.replicate 32 0,
              List.replicate 32 0, List.replicate 4 0, List.replicate 4 0,
              List.replicate 32 0, []⟩, []⟩ : Block) :: bs)
        (read_blockfile [] [1]) :=
  c7_record_boundary [1] [146, 0, 0, 0] (List.replicate 146 0) []
    ⟨⟨List.replicate 4 0, List.replicate 32 0, List.replicate 32 0,
      List.replicate 32 0, List.replicate 4 0, List.replicate 4 0,
      List.replicate 32 0, []⟩, []⟩
    (List.replicate 4 0) (by decide) (by decide) (by decide) (by decide)

/-- C8: a non-empty magic read that is not exactly the expected magic
(including a partial read at end of file) fails the whole read as
malformed; a zero-byte read stops cleanly with the accumulated blocks; and
an error anywhere downstream makes the whole read that error, never a
partial block sequence. -/
theorem c8_magic_mismatch :
    (∀ file magic : List Nat, file.take magic.length ≠ [] →
      file.take magic.length ≠ magic →
      read_blockfile file magic = .error .malformed) ∧
    (∀ file magic : List Nat, file.take magic.length = [] →
      read_blockfile file magic = .ok []) ∧
    (∀ magic size4 payload rest : List Nat, ∀ b : Block,
      ∀ leftover : List Nat, ∀ e : Err,
      magic ≠ [] → size4.length = 4 → payload.length = leNat size4 →
      Block.from_bytes payload = .ok (b, leftover) →
      read_blockfile rest magic = .error e →
      read_blockfile (magic ++ (size4 ++ (payload ++ rest))) magic =
        .error e) := by
  refine ⟨?_, ?_, ?_⟩
  · intro file magic h1 h2
    simp only [read_blockfile]
    exact go_mismatch h1 h2
  · intro file magic h
    simp only [read_blockfile]
    exact go_stop h
  · intro magic size4 payload rest b leftover e hm h4 hp hb he
    simp only [read_blockfile] at he ⊢
    rw [go_record_ok hm h4 hp hb, he]
    rfl

theorem c8_witness :
    read_blockfile [9, 9] [1, 1] = .error .malformed ∧
    read_blockfile [] [1] = .ok [] ∧
    read_blockfile ([1] ++ ([142, 0, 0, 0] ++ (List.replicate 142 0 ++ [2])))
        [1] = .error .malformed := by
  have he : read_blockfile [2] [1] = .error .malformed := by
    simp only [read_blockfile]
    exact go_mismatch (by decide) (by decide)
  exact ⟨c8_magic_mismatch.1 [9, 9] [1, 1] (by decide) (by decide),
    c8_magic_mismatch.2.1 [] [1] (by decide),
    c8_magic_mismatch.2.2 [1] [142, 0, 0, 0] (List.replicate 142 0) [2]
      ⟨⟨List.replicate 4 0, List.replicate 32 0, List.replicate 32 0,
        List.replicate 32 0, List.replicate 4 0, List.replicate 4 0,
        List.replicate 32 0, []⟩, []⟩
      [] .malformed (by decide) (by decide) (by decide)
      (by decide) he⟩

/-- C1 counterexample: on a cursor holding the compact-size prefix 2 but
only one payload byte, `read_bytes` does not fail with end-of-stream — it
returns the single remaining byte, a sequence shorter than the decoded
length. -/
theorem c1_counterexample :
    read_bytes [2, 170] = .ok ([170], []) ∧
    read_bytes [2, 170] ≠ .error .eof := by
  decide

/-- C1 amended: when at least `n` bytes remain after the compact-size
prefix, `read_bytes` returns exactly the next `n` bytes and advances by
`n`; when fewer than `n` remain it does not fail — it silently returns all
remaining bytes (a sequence shorter than `n`). -/
theorem c1_read_bytes_behavior :
    (∀ (n : Nat) (data rest : List Nat), n ≤ 0x02000000 → data.length = n →
      read_bytes (encodeCS n ++ (data ++ rest)) = .ok (data, rest)) ∧
    (∀ (n : Nat) (short : List Nat), n ≤ 0x02000000 → short.length < n →
      read_bytes (encodeCS n ++ short) = .ok (short, [])) := by
  constructor
  · intro n data rest hn hd
    simp only [read_bytes]
    rw [read_compact_size_encode (data ++ rest) hn]
    simp only [sread]
    rw [List.take_left' hd, List.drop_left' hd]
  · intro n short hn hs
    simp only [read_bytes]
    rw [read_compact_size_encode short hn]
    simp only [sread]
    rw [List.take_of_length_le hs.le, List.drop_eq_nil_of_le hs.le]

theorem c1_witness :
    read_bytes (encodeCS 2 ++ ([7, 8] ++ [9])) = .ok ([7, 8], [9]) ∧
    read_bytes (encodeCS 2 ++ [7]) = .ok ([7], []) :=
  ⟨c1_read_bytes_behavior.1 2 [7, 8] [9] (by decide) rfl,
   c1_read_bytes_behavior.2 2 [7] (by decide) (by decide)⟩

/-- C2 counterexample: a file whose single record declares `size = 150` but
ends after 142 payload bytes — the payload "cannot be read in full", yet
`read_blockfile` succeeds and returns the block decoded from the short
slice instead of failing with end-of-stream. -/
theorem c2_counterexample :
    read_blockfile ([1] ++ ([150, 0, 0, 0] ++ List.replicate 142 0)) [1] =
      .ok [⟨⟨List.replicate 4 0, List.replicate 32 0, List.replicate 32 0,
             List.replicate 32 0, List.replicate 4 0, List.replicate 4 0,
             List.replicate 32 0, []⟩, []⟩] := by
  simp only [read_blockfile]
  rw [go_short_payload (by decide) (by decide) (by decide)]
  decide

/-- C2 amended: a file ending after a complete magic sequence with fewer
than 4 further bytes fails the `size` read with end-of-stream (in
particular a file that is exactly the magic); but a payload that cannot be
read in full does not itself fail — the bytes actually read are handed to
the block decoder and the read fails only if that decode fails. -/
theorem c2_truncation_behavior :
    (∀ magic short : List Nat, magic ≠ [] → short.length < 4 →
      read_blockfile (magic ++ short) magic = .error .eof) ∧
    (∀ magic size4 tail : List Nat, magic ≠ [] → size4.length = 4 →
      tail.length < leNat size4 →
      read_blockfile (magic ++ (size4 ++ tail)) magic =
        match Block.from_bytes tail with
        | .error e => .error e
        | .ok (b, _) => .ok [b]) := by
  constructor
  · intro magic short hm hs
    simp only [read_blockfile]
    exact go_truncated hm hs
  · intro magic size4 tail hm h4 ht
    simp only [read_blockfile]
    exact go_short_payload hm h4 ht

theorem c2_witness :
    read_blockfile ([1] ++ []) [1] = .error .eof ∧
    read_blockfile ([1] ++ ([150, 0, 0, 0] ++ List.replicate 141 0)) [1] =
      match Block.from_bytes (List.replicate 141 0) with
      | .error e => .error e
      | .ok (b, _) => .ok [b] :=
  ⟨c2_truncation_behavior.1 [1] [] (by decide) (by decide),
   c2_truncation_behavior.2 [1] [150, 0, 0, 0] (List.replicate 141 0)
     (by decide) (by decide) (by decide)⟩

/-- C3 counterexample: a 1801-byte buffer — one byte short of the
well-formed 1802 — does not fail with end-of-stream: `JoinSplit.from_bytes`
succeeds (the second ciphertext read silently comes back one byte short)
with the cursor exhausted. -/
theorem c3_counterexample :
    (JoinSplit.from_bytes (List.replicate 1801 0)).map Prod.snd =
      .ok ([] : List Nat) := by
  decide

/-- C3 amended: `JoinSplit.from_bytes` fails with end-of-stream only when
fewer than 16 bytes remain (the two `unpack`-checked 8-byte `vpub` fields);
on any buffer of at least 16 bytes it succeeds with the cursor advanced by
exactly `min 1802 length` — in particular a well-formed 1802-byte buffer is
consumed in full, but a buffer between 16 and 1801 bytes succeeds with raw
fields silently short instead of failing. -/
theorem c3_joinsplit_layout :
    (∀ s : List Nat, s.length < 16 → JoinSplit.from_bytes s = .error .eof) ∧
    (∀ s : List Nat, 16 ≤ s.length →
      (JoinSplit.from_bytes s).map Prod.snd = .ok (s.drop 1802)) := by
  constructor
  · intro s h
    by_cases h8 : s.length < 8
    · simp [JoinSplit.from_bytes, unpackLE_eof h8]
    · have h8' : 8 ≤ s.length := by omega
      have h2 : (s.drop 8).length < 8 := by
        rw [List.length_drop]
        omega
      simp [JoinSplit.from_bytes, unpackLE_ok_of_le h8', unpackLE_eof h2]
  · intro s h
    have h8' : 8 ≤ s.length := by omega
    have h16 : 8 ≤ (s.drop 8).length := by
      rw [List.length_drop]
      omega
    simp only [JoinSplit.from_bytes, unpackLE_ok_of_le h8',
      unpackLE_ok_of_le h16, sread, Except.map]
    norm_num [List.drop_drop]

theorem c3_witness :
    JoinSplit.from_bytes (List.replicate 15 0) = .error .eof ∧
    (JoinSplit.from_bytes (List.replicate 1802 0)).map Prod.snd =
      .ok ((List.replicate 1802 0).drop 1802) :=
  ⟨c3_joinsplit_layout.1 (List.replicate 15 0) (by simp),
   c3_joinsplit_layout.2 (List.replicate 1802 0) (by simp)⟩

/-- C6: in `Transaction.from_bytes` the join-split vector is decoded from
the wire iff `version ≥ 2` (a version below 2 yields the empty vector with
zero bytes consumed, the cursor staying where `lock_time` left it), and the
trailing pubkey/signature reads happen iff the vector is non-empty (an
empty vector — by low version or zero count — yields empty pubkey and
signature with zero bytes consumed); on every successful decode the
invariant holds that a version below 2 forces an empty `vjoinsplit`, and an
empty `vjoinsplit` forces empty `joinsplit_pubkey`/`joinsplit_sig`. -/
theorem c6_joinsplit_tail :
    (∀ s s' : List Nat, ∀ tx : Transaction,
      Transaction.from_bytes s = .ok (tx, s') →
      (tx.version < 2 → tx.vjoinsplit = []) ∧
      (tx.vjoinsplit = [] →
        tx.joinsplit_pubkey = [] ∧ tx.joinsplit_sig = [])) ∧
    (∀ s s₁ s₂ s₃ s₄ : List Nat, ∀ v lt : Nat, ∀ vin : List TxIn,
      ∀ vout : List TxOut,
      unpackLE 4 s = .ok (v, s₁) →
      read_vector TxIn.from_bytes s₁ = .ok (vin, s₂) →
      read_vector TxOut.from_bytes s₂ = .ok (vout, s₃) →
      unpackLE 4 s₃ = .ok (lt, s₄) →
      (v < 2 →
        Transaction.from_bytes s =
          .ok (⟨v, vin, vout, lt, [], [], []⟩, s₄)) ∧
      (∀ js : List JoinSplit, ∀ s₅ : List Nat, 2 ≤ v →
        read_vector JoinSplit.from_bytes s₄ = .ok (js, s₅) →
        (js = [] →
          Transaction.from_bytes s =
            .ok (⟨v, vin, vout, lt, [], [], []⟩, s₅)) ∧
        (js ≠ [] →
          Transaction.from_bytes s =
            .ok (⟨v, vin, vout, lt, js, s₅.take 32,
                  (s₅.drop 32).take 64⟩, s₅.drop 96)))) := by
  constructor
  · intro s s' tx h
    simp only [Transaction.from_bytes] at h
    split at h
    · simp at h
    · split at h
      · simp at h
      · split at h
        · simp at h
        · split at h
          · simp at h
          · split at h
            · simp at h
            · rename_i version s₁ vin s₂ vout s₃ lt s₄ js s₅ heq5
              split_ifs at h with hlen
              · simp only [sread, Except.ok.injEq, Prod.mk.injEq] at h
                obtain ⟨htx, hs⟩ := h
                subst htx
                constructor
                · intro hv
                  exfalso
                  dsimp only at hv
                  rw [if_neg (by omega)] at heq5
                  simp only [Except.ok.injEq, Prod.mk.injEq] at heq5
                  obtain ⟨hjs, _⟩ := heq5
                  rw [← hjs] at hlen
                  simp at hlen
                · intro hempty
                  exfalso
                  dsimp only at hempty
                  rw [hempty] at hlen
                  simp at hlen
              · have hjs : js = [] :=
                  List.length_eq_zero.mp (by omega)
                simp only [Except.ok.injEq, Prod.mk.injEq] at h
                obtain ⟨htx, hs⟩ := h
                subst htx
                exact ⟨fun _ => hjs, fun _ => ⟨rfl, rfl⟩⟩
  · intro s s₁ s₂ s₃ s₄ v lt vin vout h1 h2 h3 h4
    constructor
    · intro hv
      simp only [Transaction.from_bytes, h1, h2, h3, h4]
      rw [if_neg (by omega)]
      simp
    · intro js s₅ hv hjs
      constructor
      · intro hempty
        subst hempty
        simp only [Transaction.from_bytes, h1, h2, h3, h4]
        rw [if_pos hv]
        simp [hjs]
      · intro hne
        have hlen : 0 < js.length := List.length_pos.mpr hne
        simp only [Transaction.from_bytes, h1, h2, h3, h4]
        rw [if_pos hv]
        simp only [hjs]
        rw [if_pos hlen]
        simp [sread, List.drop_drop]

theorem c6_witness :
    Transaction.from_bytes [1, 0, 0, 0, 0, 0, 0, 0, 0, 0] =
      .ok (⟨1, [], [], 0, [], [], []⟩, []) :=
  (c6_joinsplit_tail.2 [1, 0, 0, 0, 0, 0, 0, 0, 0, 0] [0, 0, 0, 0, 0, 0]
      [0, 0, 0, 0, 0] [0, 0, 0, 0] [] 1 0 [] []
      (by decide) (by decide) (by decide) (by decide)).1 (by decide)

end UtxoDump
